import Mathlib

/-!
Verification of the tls-did-resolver core against its specification.

The TypeScript source is shallowly embedded: pure functions become Lean
functions over `String`/`List Char`, JavaScript exceptions become
`Except`/`Option` error values, and the external collaborators
(node-forge PKI parsing and path validation, the OCSP transport, the
signature primitive, the ledger contracts) are modelled as explicit
environment records of functions, since they are outside the repository.
-/

/-! ## Document assembler (`utils.ts`: `addValueAtPath`)

JSON-like values.  JavaScript objects are association lists preserving
insertion order; assigning to an existing key keeps its position. -/

inductive JValue where
  | str : String → JValue
  | arr : List JValue → JValue
  | obj : List (String × JValue) → JValue
deriving Repr

/-- JavaScript property assignment `o[k] = v`: update in place if the key
exists, otherwise append. -/
def objSet : List (String × JValue) → String → JValue → List (String × JValue)
  | [], k, v => [(k, v)]
  | (k', v') :: rest, k, v =>
    if k' = k then (k, v) :: rest else (k', v') :: objSet rest k v

/-- JavaScript property read `o[k]` (keys are unique in objects built by
`objSet`, so first match suffices). -/
def lookupField : List (String × JValue) → String → Option JValue
  | [], _ => none
  | (k', v') :: rest, k => if k' = k then some v' else lookupField rest k

/-- JavaScript truthiness of the values that can occur in a document:
objects and arrays are truthy, the empty string is falsy. -/
def truthy : JValue → Bool
  | .str s => !(s == "")
  | .arr _ => true
  | .obj _ => true

/-- `path.split('/')` from `addValueAtPath`, on character lists. -/
def splitSlash : List Char → List (List Char)
  | [] => [[]]
  | c :: rest =>
    if c = '/' then [] :: splitSlash rest
    else
      match splitSlash rest with
      | [] => [[c]]
      | h :: t => (c :: h) :: t

/-- `key.endsWith('[]')`. -/
def endsWithBrackets (key : List Char) : Bool :=
  match key.reverse with
  | ']' :: '[' :: _ => true
  | _ => false

/-- `key.slice(0, -2)`. -/
def sliceDropTwo (key : List Char) : List Char :=
  key.dropLast.dropLast

/-- The body of `addValueAtPath`'s `forEach` over the path segments,
written as pure descent-and-rebuild.  `none` models a JavaScript
`TypeError` (`.push` on a non-array value); the non-object `cur` cases
are unreachable from a document root, which is always an object, since
every descent targets an object. -/
def addSegs (value : String) : List (List Char) → JValue → Option JValue
  | [], cur => some cur
  | [key], .obj fields =>
    if endsWithBrackets key then
      let k := String.mk (sliceDropTwo key)
      match lookupField fields k with
      | some ex =>
        if truthy ex then
          match ex with
          | .arr xs => some (.obj (objSet fields k (.arr (xs ++ [.str value]))))
          | _ => none
        else some (.obj (objSet fields k (.arr [.str value])))
      | none => some (.obj (objSet fields k (.arr [.str value])))
    else some (.obj (objSet fields (String.mk key) (.str value)))
  | [_], _ => none
  | key :: rest, .obj fields =>
    if endsWithBrackets key then
      let k := String.mk (sliceDropTwo key)
      match lookupField fields k with
      | some ex =>
        if truthy ex then
          match ex with
          | .arr xs =>
            (addSegs value rest (.obj [])).map fun fresh =>
              .obj (objSet fields k (.arr (xs ++ [fresh])))
          | _ => none
        else
          (addSegs value rest (.obj [])).map fun fresh =>
            .obj (objSet fields k (.arr [fresh]))
      | none =>
        (addSegs value rest (.obj [])).map fun fresh =>
          .obj (objSet fields k (.arr [fresh]))
    else
      (addSegs value rest (.obj [])).map fun fresh =>
        .obj (objSet fields (String.mk key) fresh)
  | _ :: _, _ => none

/-- `addValueAtPath(object, path, value)` from `utils.ts`. -/
def addValueAtPath (object : JValue) (path : String) (value : String) : Option JValue :=
  addSegs value (splitSlash path.toList) object

example :
    addValueAtPath (.obj []) "parent/child" "value"
      = some (.obj [("parent", .obj [("child", .str "value")])]) := by rfl

example :
    addValueAtPath (.obj []) "parent[]/child" "value"
      = some (.obj [("parent", .arr [.obj [("child", .str "value")]])]) := by rfl

example :
    addValueAtPath (.obj [("a", .arr [.obj [("x", .str "1")]])]) "a[]/b" "v"
      = some (.obj [("a", .arr [.obj [("x", .str "1")], .obj [("b", .str "v")]])]) := by rfl

/-! ## Chain splitter (`utils.ts`: `chainToCerts`)

`chain.split(/\n(?=-----BEGIN CERTIFICATE-----)/g)`: split at every
newline that is immediately followed by the certificate begin-marker,
consuming the newline. -/

def beginMarker : List Char := "-----BEGIN CERTIFICATE-----".toList

/-- The regex split underlying `chainToCerts`, on character lists. -/
def splitPem : List Char → List (List Char)
  | [] => [[]]
  | c :: rest =>
    if c = '\n' ∧ beginMarker.isPrefixOf rest = true then
      [] :: splitPem rest
    else
      match splitPem rest with
      | [] => [[c]]
      | h :: t => (c :: h) :: t

/-- `chainToCerts(chain)` from `utils.ts`. -/
def chainToCerts (chain : String) : List String :=
  (splitPem chain.toList).map String.mk

/-- Concatenation of PEM certificates into one blob, the form the
repository stores and its test constructs: pieces joined by a newline. -/
def joinPem : List String → String
  | [] => ""
  | [c] => c
  | c :: cs => c ++ "\n" ++ joinPem cs

/-- Decides whether a character list contains a newline immediately
followed by the begin-marker, i.e. a split boundary strictly inside it. -/
def containsNlMarker : List Char → Bool
  | [] => false
  | c :: rest =>
    ((c == '\n') && beginMarker.isPrefixOf rest) || containsNlMarker rest

example : chainToCerts "a\n-----BEGIN CERTIFICATE-----b"
    = ["a", "-----BEGIN CERTIFICATE-----b"] := by rfl

example : splitPem [] = [[]] := by rfl

/-! ## Chain validation (`utils.ts`: `processChains`, `verifyChain`,
`verifyCertSubject`, `checkOCSP`, `checkForOCSP`)

The node-forge and ocsp libraries are external; they are modelled as an
environment of oracle functions.  A JavaScript throw / promise rejection
is an `Except.error`. -/

/-- The part of a parsed x509 certificate the source reads:
`pkiObject.subject.attributes[*].value`. -/
structure Cert where
  subjectAttrValues : List String
deriving Repr, DecidableEq

/-- External collaborators used by chain validation:
* `certificateFromPem` — node-forge parsing, `none` models a throw;
* `verifyCertificateChain` — node-forge path validation of a
  certificate array against a CA store;
* `getOCSPURI` — `ocsp.getOCSPURI` callback result, `none` when the
  certificate advertises no OCSP endpoint;
* `ocspResponse` — `ocsp.check` callback result, `none` when the check
  errored / returned no response, otherwise `some res.type`. -/
structure PkiEnv where
  certificateFromPem : String → Option Cert
  verifyCertificateChain : List Cert → List Cert → Bool
  getOCSPURI : String → Option String
  ocspResponse : String → String → Option String

/-- JavaScript exceptions that can escape the chain-validation code. -/
inductive JsError where
  /-- `pki.certificateFromPem` threw on a malformed certificate. -/
  | parseError : JsError
  /-- `checkForOCSP` ran `reject(false)`: no OCSP URI was found. -/
  | rejectedFalse : JsError
  /-- `checkOCSP` ran `reject(err)`: the OCSP query produced no response. -/
  | ocspError : JsError
deriving Repr, DecidableEq

/-- `checkForOCSP(cert)` from `utils.ts`.  Note the source calls
`reject(false)` when no URI is found, so the promise never resolves to
`false`: it either resolves `true` or rejects. -/
def checkForOCSP (env : PkiEnv) (cert : String) : Except JsError Bool :=
  match env.getOCSPURI cert with
  | none => .error .rejectedFalse
  | some _ => .ok true

/-- `checkOCSP(cert, issuerCert)` from `utils.ts`: resolves
`res.type === 'good'`, rejects when there is no response. -/
def checkOCSP (env : PkiEnv) (cert issuerCert : String) : Except JsError Bool :=
  match env.ocspResponse cert issuerCert with
  | none => .error .ocspError
  | some t => .ok (t == "good")

/-- `verifyCertSubject(cert, subject)` from `utils.ts`:
`pkiObject.subject?.attributes[0]?.value === subject`. -/
def verifyCertSubject (env : PkiEnv) (cert subject : String) : Except JsError Bool :=
  match env.certificateFromPem cert with
  | none => .error .parseError
  | some c => .ok (c.subjectAttrValues.head? == some subject)

/-- One verified chain record `{ chain, valid }`. -/
structure VerifiedChain where
  chain : List String
  valid : Bool
deriving Repr, DecidableEq

/-- `chain.map((pem) => pki.certificateFromPem(pem))`, throwing at the
first malformed certificate exactly as the sequential `.map` does. -/
def parseChain (env : PkiEnv) : List String → Except JsError (List Cert)
  | [] => .ok []
  | pem :: rest => do
    let c ← match env.certificateFromPem pem with
      | some c => Except.ok c
      | none => Except.error JsError.parseError
    let cs ← parseChain env rest
    return c :: cs

/-- `verifyChain(chain, domain, caStore)` from `utils.ts`.  JavaScript
`chain[0]` / `chain[1]` on a too-short array yield `undefined`; they are
modelled with a default `""` (chains produced by `chainToCerts` are
never empty).  The `&&` short-circuit means the subject check only runs
when path validation returned `true`. -/
def verifyChain (env : PkiEnv) (chain : List String) (domain : String)
    (caStore : List Cert) : Except JsError VerifiedChain :=
  match parseChain env chain with
  | .error e => .error e
  | .ok certificateArray =>
    match
      (if env.verifyCertificateChain caStore certificateArray then
        verifyCertSubject env (chain.headD "") domain
      else
        .ok false) with
    | .error e => .error e
    | .ok valid =>
      match checkForOCSP env (chain.headD "") with
      | .error e => .error e
      | .ok hasOcsp =>
        if hasOcsp then
          match checkOCSP env (chain.headD "") (chain.getD 1 "") with
          | .error e => .error e
          | .ok good => .ok { chain := chain, valid := valid && good }
        else
          .ok { chain := chain, valid := valid }

/-- The trust-anchor build inside `processChains`: map
`pki.certificateFromPem` over the root certificates, collecting the
index of every root whose parse throws, then keep the parsed ones.
Returns `(caStore, unsupportedRootCertIdxs)`. -/
def buildCaStoreAux (parse : String → Option Cert) :
    Nat → List String → List Cert × List Nat
  | _, [] => ([], [])
  | idx, r :: rs =>
    match parse r, buildCaStoreAux parse (idx + 1) rs with
    | some c, (store, skipped) => (c :: store, skipped)
    | none, (store, skipped) => (store, idx :: skipped)

/-- `(caStore, unsupportedRootCertIdxs)` built from the root list. -/
def buildCaStore (parse : String → Option Cert) (roots : List String) :
    List Cert × List Nat :=
  buildCaStoreAux parse 0 roots

/-- `Array.from(new Set(chains))`: deduplicate by exact string equality,
keeping the first occurrence of each chain in input order. -/
def dedupeAux (seen : List String) : List String → List String
  | [] => []
  | c :: rest =>
    if c ∈ seen then dedupeAux seen rest
    else c :: dedupeAux (c :: seen) rest

/-- The deduplication step of `processChains`. -/
def dedupe (chains : List String) : List String :=
  dedupeAux [] chains

/-- The `for (let chain of filterdChains)` loop of `processChains`:
sequential, no catch, so the first rejection aborts the loop. -/
def processChainsGo (env : PkiEnv) (domain : String) (caStore : List Cert) :
    List String → Except JsError (List VerifiedChain)
  | [] => .ok []
  | chain :: rest =>
    match verifyChain env (chainToCerts chain) domain caStore with
    | .error e => .error e
    | .ok v =>
      match processChainsGo env domain caStore rest with
      | .error e => .error e
      | .ok vs => .ok (v :: vs)

/-- `processChains(chains, domain)` from `utils.ts`; `roots` stands for
the imported `tls.rootCertificates`. -/
def processChains (env : PkiEnv) (roots : List String) (chains : List String)
    (domain : String) : Except JsError (List VerifiedChain) :=
  let filterdChains := dedupe chains
  let caStore := (buildCaStore env.certificateFromPem roots).1
  processChainsGo env domain caStore filterdChains

/-! ## Resolver (`resolver.ts`: `resolveContract`, `verifyContract`)

The ethers contracts and the crypto signature primitive are external;
the ledger state is an environment of lookup functions.  Each thrown
`Error` of the source becomes an explicit error constructor. -/

/-- One `{ path, value }` attribute stored on a contract. -/
structure Attribute where
  path : String
  value : String
deriving Repr, DecidableEq

/-- The data `verifyContract` reads from one TLS DID contract. -/
structure TLSDIDContract where
  address : String
  signature : String
  domain : String
  attributes : List Attribute
  expiry : Int
deriving Repr, DecidableEq

/-- `hashContract(domain, address, attributes, expiry)` from `utils.ts`:
a deterministic, field- and attribute-order-sensitive digest of the four
inputs (`object-hash` itself is external; only determinism and
order-sensitivity are relied on, so the digest is the tuple itself). -/
structure ContractHash where
  domain : String
  address : String
  attributes : List Attribute
  expiry : Int
deriving Repr, DecidableEq

/-- `hashContract` from `utils.ts`. -/
def hashContract (domain address : String) (attributes : List Attribute)
    (expiry : Int) : ContractHash :=
  { domain := domain, address := address, attributes := attributes, expiry := expiry }

/-- Errors thrown inside `verifyContract` for a single candidate. -/
inductive VcError where
  /-- `'DID identifier does not match contract domain'`. -/
  | domainMismatch : VcError
  /-- `'Contract expired'`. -/
  | expired : VcError
deriving Repr, DecidableEq

/-- Errors thrown by `resolveContract` itself. -/
inductive ResolverError where
  /-- `'No contract was found'`. -/
  | noContractFound : ResolverError
  /-- `'No tls certificates were found.'` -/
  | noCertsFound : ResolverError
  /-- An exception escaping `processChains` (awaited without a catch). -/
  | js : JsError → ResolverError
  /-- `'No valid tls chains was found.'` -/
  | noValidChain : ResolverError
  /-- `'Multiple valid tls chains were found.'` -/
  | ambiguousChain : ResolverError
  /-- `'... contracts were found. None was valid.'` -/
  | noValidCandidate : ResolverError
  /-- `'... contracts were found. Multiple were valid.'` -/
  | ambiguousCandidate : ResolverError
deriving Repr, DecidableEq

/-- The ledger and crypto collaborators of `resolveContract`, plus the
clock: `getContracts`/`getChains` are the registry reads for a domain,
`contractAt` is the state of the TLS DID contract at an address, and
`verifySignature cert signature hash` is `verify` from `utils.ts`. -/
structure ResolveEnv where
  pki : PkiEnv
  rootCertificates : List String
  getContracts : String → List String
  getChains : String → List String
  contractAt : String → TLSDIDContract
  verifySignature : String → String → ContractHash → Bool
  now : Int

/-- `verifyContract(contract, did, cert)` from `resolver.ts`: reject on
domain mismatch, reject when expired (`new Date(n)` is always truthy, so
the guard reduces to the comparison), otherwise verify the signature
over the contract hash against the certificate. -/
def verifyContract (env : ResolveEnv) (c : TLSDIDContract) (did : String)
    (cert : String) : Except VcError Bool :=
  let didDomain := did.drop 8
  if didDomain ≠ c.domain then .error .domainMismatch
  else if c.expiry < env.now then .error .expired
  else .ok (env.verifySignature cert c.signature
    (hashContract didDomain c.address c.attributes c.expiry))

/-- Lines 42–47 of `resolver.ts`: filter the verified chains to the
valid ones, throw when none or several remain, continue with
`validChains[0]`. -/
def selectValidChain (verfiedChains : List VerifiedChain) :
    Except ResolverError VerifiedChain :=
  let validChains := verfiedChains.filter (·.valid)
  if validChains.length = 0 then .error .noValidChain
  else if validChains.length > 1 then .error .ambiguousChain
  else .ok (validChains.headD { chain := [], valid := false })

/-- The candidate loop of `resolveContract` (lines 51–68): the
per-candidate verification is wrapped in try/catch, so a throw leaves
`valid` undefined (falsy) and the loop continues; a second valid
candidate throws; after the loop, no valid candidate throws. -/
def selectContractLoop (verdict : String → Except VcError Bool) :
    Option String → List String → Except ResolverError String
  | acc, [] =>
    match acc with
    | some a => .ok a
    | none => .error .noValidCandidate
  | acc, addr :: rest =>
    let valid := match verdict addr with
      | .ok b => b
      | .error _ => false
    if valid && acc.isNone then selectContractLoop verdict (some addr) rest
    else if valid then .error .ambiguousCandidate
    else selectContractLoop verdict acc rest

/-- `resolveContract(did, provider, registryAddress)` from
`resolver.ts`.  The returned pair is `(contract address, leaf pem)`;
the source additionally converts the leaf to JWK via the external
`x509ToJwk`.  `did.drop 8` is `did.substring(8)`. -/
def resolveContract (env : ResolveEnv) (did : String) :
    Except ResolverError (String × String) :=
  let domain := did.drop 8
  let addresses := env.getContracts domain
  if addresses.length = 0 then .error .noContractFound
  else
    let chains := env.getChains domain
    if chains.length = 0 then .error .noCertsFound
    else
      match processChains env.pki env.rootCertificates chains domain with
      | .error e => .error (.js e)
      | .ok verfiedChains =>
        match selectValidChain verfiedChains with
        | .error e => .error e
        | .ok validChain =>
          let leaf := validChain.chain.headD ""
          match selectContractLoop
              (fun a => verifyContract env (env.contractAt a) did leaf)
              none addresses with
          | .error e => .error e
          | .ok addr => .ok (addr, leaf)

/-! ## Theorems -/

/-- **C1.** For every sequence of verification outcomes, the chain stage
of candidate selection fails with `NoValidChain` when zero outcomes are
valid, fails with `AmbiguousChain` when more than one is valid, and can
only succeed by returning the unique valid outcome — it never silently
picks one of several simultaneously-valid chains. -/
theorem selectValidChain_arity (outcomes : List VerifiedChain) :
    ((outcomes.filter (·.valid)).length = 0 →
      selectValidChain outcomes = .error .noValidChain) ∧
    (1 < (outcomes.filter (·.valid)).length →
      selectValidChain outcomes = .error .ambiguousChain) ∧
    (∀ o, selectValidChain outcomes = .ok o → outcomes.filter (·.valid) = [o]) := by
  refine ⟨?_, ?_, ?_⟩
  · intro h
    simp [selectValidChain, h]
  · intro h
    simp only [selectValidChain]
    rw [if_neg (by omega), if_pos (by omega)]
  · intro o ho
    simp only [selectValidChain] at ho
    by_cases h0 : (outcomes.filter (·.valid)).length = 0
    · rw [if_pos h0] at ho
      cases ho
    · by_cases h1 : 1 < (outcomes.filter (·.valid)).length
      · rw [if_neg h0, if_pos (by omega)] at ho
        cases ho
      · have hlen : (outcomes.filter (·.valid)).length = 1 := by omega
        obtain ⟨x, hx⟩ := List.length_eq_one.mp hlen
        rw [if_neg h0, if_neg (by omega)] at ho
        rw [hx] at ho ⊢
        cases ho
        rfl

theorem selectValidChain_arity_witness :
    selectValidChain [{ chain := ["c"], valid := false }] = .error .noValidChain ∧
    selectValidChain [{ chain := ["a"], valid := true }, { chain := ["b"], valid := true }]
      = .error .ambiguousChain :=
  ⟨(selectValidChain_arity _).1 (by decide),
   (selectValidChain_arity _).2.1 (by decide)⟩

/-- Whether a candidate address matches: its verification resolved
`true`; a rejection (caught by the try/catch of the loop) is a
non-match. -/
def candidateMatches (verdict : String → Except VcError Bool) (addr : String) : Bool :=
  match verdict addr with
  | .ok b => b
  | .error _ => false

/-- The candidate loop, for any accumulator, is determined by the list
of matching addresses: with no prior valid contract it succeeds exactly
on a unique match, and with a prior valid contract any further match is
ambiguous. -/
theorem selectContractLoop_eq (verdict : String → Except VcError Bool) :
    ∀ (addrs : List String) (acc : Option String),
      selectContractLoop verdict acc addrs =
        match acc, addrs.filter (candidateMatches verdict) with
        | none, [] => .error .noValidCandidate
        | none, [a] => .ok a
        | none, _ :: _ :: _ => .error .ambiguousCandidate
        | some c, [] => .ok c
        | some _, _ :: _ => .error .ambiguousCandidate := by
  intro addrs
  induction addrs with
  | nil =>
    intro acc
    cases acc <;> simp [selectContractLoop]
  | cons a rest ih =>
    intro acc
    have hv : (match verdict a with | .ok b => b | .error _ => false)
        = candidateMatches verdict a := rfl
    cases hm : candidateMatches verdict a
    · cases acc <;>
        simp [selectContractLoop, hv, hm, List.filter_cons, ih]
    · cases acc with
      | none =>
        simp only [selectContractLoop, hv, hm, Bool.true_and, Option.isNone_none,
          if_pos, List.filter_cons]
        rw [ih (some a)]
        cases hf : rest.filter (candidateMatches verdict) <;> simp [hm]
      | some c =>
        simp [selectContractLoop, hv, hm, List.filter_cons]

/-- **C3.** Given the unique valid chain's leaf, the candidate stage
fails with `NoValidCandidate` when no candidate's signature verifies,
fails with `AmbiguousCandidate` when more than one verifies, and returns
exactly the unique matching candidate otherwise. -/
theorem candidate_selection_arity (env : ResolveEnv) (did leaf : String)
    (addresses : List String) :
    (addresses.filter (candidateMatches
        (fun a => verifyContract env (env.contractAt a) did leaf)) = [] →
      selectContractLoop (fun a => verifyContract env (env.contractAt a) did leaf)
        none addresses = .error .noValidCandidate) ∧
    (1 < (addresses.filter (candidateMatches
        (fun a => verifyContract env (env.contractAt a) did leaf))).length →
      selectContractLoop (fun a => verifyContract env (env.contractAt a) did leaf)
        none addresses = .error .ambiguousCandidate) ∧
    (∀ addr, addresses.filter (candidateMatches
        (fun a => verifyContract env (env.contractAt a) did leaf)) = [addr] →
      selectContractLoop (fun a => verifyContract env (env.contractAt a) did leaf)
        none addresses = .ok addr) := by
  refine ⟨?_, ?_, ?_⟩
  · intro h
    rw [selectContractLoop_eq, h]
  · intro h
    rw [selectContractLoop_eq]
    obtain ⟨x, y, t, hxyt⟩ : ∃ x y t, addresses.filter (candidateMatches
        (fun a => verifyContract env (env.contractAt a) did leaf)) = x :: y :: t := by
      match hl : addresses.filter (candidateMatches
          (fun a => verifyContract env (env.contractAt a) did leaf)), h with
      | x :: y :: t, _ => exact ⟨x, y, t, rfl⟩
    rw [hxyt]
  · intro addr h
    rw [selectContractLoop_eq, h]

/-- **C7.** A rejection while verifying one candidate — including the
domain-mismatch and expiry rejections `verifyContract` itself throws —
is caught by the loop's try/catch and treated as "this candidate does
not match": the loop continues with the remaining candidates unchanged
and never propagates the exception. -/
theorem candidate_exception_skipped :
    (∀ (env : ResolveEnv) (c : TLSDIDContract) (did cert : String),
        did.drop 8 ≠ c.domain →
        verifyContract env c did cert = .error .domainMismatch) ∧
    (∀ (env : ResolveEnv) (c : TLSDIDContract) (did cert : String),
        did.drop 8 = c.domain → c.expiry < env.now →
        verifyContract env c did cert = .error .expired) ∧
    (∀ (env : ResolveEnv) (did leaf : String) (acc : Option String)
        (addr : String) (rest : List String) (e : VcError),
        verifyContract env (env.contractAt addr) did leaf = .error e →
        selectContractLoop (fun a => verifyContract env (env.contractAt a) did leaf)
            acc (addr :: rest)
          = selectContractLoop (fun a => verifyContract env (env.contractAt a) did leaf)
            acc rest) := by
  refine ⟨?_, ?_, ?_⟩
  · intro env c did cert h
    simp [verifyContract, h]
  · intro env c did cert hdom hexp
    simp [verifyContract, hdom, hexp]
  · intro env did leaf acc addr rest e h
    simp [selectContractLoop, h]

/-- A concrete ledger/PKI environment: one registered contract for
`example.org`, every certificate parseable with subject `example.org`,
path validation succeeding, an OCSP endpoint answering `good`, and
every signature verifying. -/
def sampleEnv : ResolveEnv where
  pki :=
    { certificateFromPem := fun _ => some { subjectAttrValues := ["example.org"] }
      verifyCertificateChain := fun _ _ => true
      getOCSPURI := fun _ => some "http://ocsp.example.org"
      ocspResponse := fun _ _ => some "good" }
  rootCertificates := ["root"]
  getContracts := fun _ => ["0xA"]
  getChains := fun _ => ["leaf"]
  contractAt := fun a =>
    { address := a, signature := "sig", domain := "example.org"
      attributes := [], expiry := 100 }
  verifySignature := fun _ _ _ => true
  now := 0

theorem candidate_selection_arity_witness :
    selectContractLoop
        (fun a => verifyContract sampleEnv (sampleEnv.contractAt a) "did:tls:example.org" "leaf")
        none ["0xA"] = .ok "0xA" :=
  (candidate_selection_arity sampleEnv "did:tls:example.org" "leaf" ["0xA"]).2.2
    "0xA" (by decide)

theorem candidate_exception_skipped_witness :
    verifyContract sampleEnv (sampleEnv.contractAt "0xA") "did:tls:other.org" "leaf"
      = .error .domainMismatch ∧
    selectContractLoop
        (fun a => verifyContract sampleEnv (sampleEnv.contractAt a) "did:tls:other.org" "leaf")
        none ["0xA"]
      = selectContractLoop
        (fun a => verifyContract sampleEnv (sampleEnv.contractAt a) "did:tls:other.org" "leaf")
        none [] :=
  ⟨candidate_exception_skipped.1 sampleEnv (sampleEnv.contractAt "0xA")
      "did:tls:other.org" "leaf" (by decide),
   candidate_exception_skipped.2.2 sampleEnv "did:tls:other.org" "leaf" none "0xA" []
      .domainMismatch
      (candidate_exception_skipped.1 sampleEnv (sampleEnv.contractAt "0xA")
        "did:tls:other.org" "leaf" (by decide))⟩

/-- The indexed trust-anchor build: the store collects exactly the
parseable roots in order, and the skipped list collects exactly the
indices (offset by the start index) of the unparseable ones. -/
theorem buildCaStoreAux_eq (parse : String → Option Cert) :
    ∀ (roots : List String) (i : Nat),
      buildCaStoreAux parse i roots =
        (roots.filterMap parse,
         ((List.enumFrom i roots).filter (fun p => (parse p.2).isNone)).map Prod.fst) := by
  intro roots
  induction roots with
  | nil =>
    intro i
    simp [buildCaStoreAux]
  | cons r rs ih =>
    intro i
    cases hp : parse r <;>
      simp [buildCaStoreAux, hp, ih (i + 1), List.filterMap_cons, List.filter_cons]

/-- **C5.** Building the trust-anchor store never aborts on an
unparseable root: for every root list it totally returns a store holding
exactly the successfully parsed roots, in order, together with the list
of exactly the indices whose roots failed to parse. -/
theorem buildCaStore_fail_soft (parse : String → Option Cert) (roots : List String) :
    (buildCaStore parse roots).1 = roots.filterMap parse ∧
    (buildCaStore parse roots).2 =
      ((roots.enum.filter (fun p => (parse p.2).isNone)).map Prod.fst) := by
  rw [buildCaStore, buildCaStoreAux_eq, List.enum]
  exact ⟨rfl, rfl⟩

/-- `sampleEnv`'s PKI with no OCSP endpoint on any certificate. -/
def pkiNoOcsp : PkiEnv :=
  { sampleEnv.pki with getOCSPURI := fun _ => none }

/-- `sampleEnv`'s PKI whose OCSP responder reports `revoked`. -/
def pkiRevoked : PkiEnv :=
  { sampleEnv.pki with ocspResponse := fun _ _ => some "revoked" }

/-- **C2.** Evaluating the code at the failing input: a chain whose leaf
advertises no revocation endpoint does **not** get a (valid) outcome —
`checkForOCSP` runs `reject(false)`, so `verifyChain` rejects and no
outcome is produced at all, contradicting the claim (and `checkForOCSP`'s
own doc comment, and the dead skip-branch of `verifyChain`).  The
endpoint-present halves of the claim do hold on the code: a `revoked`
response yields an invalid outcome, a `good` response leaves the chain
valid. -/
theorem revocation_no_endpoint_rejects :
    checkForOCSP pkiNoOcsp "leaf" = .error .rejectedFalse ∧
    verifyChain pkiNoOcsp ["leaf"] "example.org" [] = .error .rejectedFalse ∧
    processChains pkiNoOcsp ["root"] ["leaf"] "example.org" = .error .rejectedFalse ∧
    verifyChain pkiRevoked ["leaf", "issuer"] "example.org" []
      = .ok { chain := ["leaf", "issuer"], valid := false } ∧
    verifyChain sampleEnv.pki ["leaf", "issuer"] "example.org" []
      = .ok { chain := ["leaf", "issuer"], valid := true } :=
  ⟨rfl, rfl, rfl, rfl, rfl⟩

/-- `sampleEnv`'s PKI where only the certificate `"badleaf"` has no OCSP
endpoint. -/
def pkiMixed : PkiEnv :=
  { sampleEnv.pki with
    getOCSPURI := fun c =>
      if c = "badleaf" then none else some "http://ocsp.example.org" }

/-- **C4, counterexample.** The chain `"goodleaf"` on its own receives a
valid outcome, but as soon as the list also contains `"badleaf"` (whose
validation rejects), `processChains` rejects as a whole: no outcome is
produced for `"goodleaf"`, so the outcomes are not one-per-chain and the
chains are not evaluated independently. -/
theorem processChains_not_independent :
    processChains pkiMixed ["root"] ["goodleaf"] "example.org"
      = .ok [{ chain := ["goodleaf"], valid := true }] ∧
    processChains pkiMixed ["root"] ["badleaf", "goodleaf"] "example.org"
      = .error .rejectedFalse :=
  ⟨rfl, rfl⟩

/-- Membership in the deduplicated list: kept iff present in the input
and not already seen. -/
theorem mem_dedupeAux (x : String) :
    ∀ (l seen : List String), x ∈ dedupeAux seen l ↔ (x ∈ l ∧ x ∉ seen) := by
  intro l
  induction l with
  | nil => intro seen; simp [dedupeAux]
  | cons c rest ih =>
    intro seen
    by_cases hc : c ∈ seen
    · rw [dedupeAux, if_pos hc, ih]
      constructor
      · rintro ⟨hr, hs⟩
        exact ⟨List.mem_cons_of_mem _ hr, hs⟩
      · rintro ⟨hcr, hs⟩
        rcases List.mem_cons.mp hcr with h | h
        · exact absurd (h ▸ hc) hs
        · exact ⟨h, hs⟩
    · rw [dedupeAux, if_neg hc]
      rw [List.mem_cons, ih]
      constructor
      · rintro (h | ⟨hr, hs⟩)
        · exact ⟨List.mem_cons.mpr (Or.inl h), fun hx => hc (h ▸ hx)⟩
        · exact ⟨List.mem_cons_of_mem _ hr, fun hx => hs (List.mem_cons_of_mem _ hx)⟩
      · rintro ⟨hcr, hs⟩
        rcases List.mem_cons.mp hcr with h | h
        · exact Or.inl h
        · by_cases hxc : x = c
          · exact Or.inl hxc
          · exact Or.inr ⟨h, fun hx => hs (by
              rcases List.mem_cons.mp hx with h' | h'
              · exact absurd h' hxc
              · exact absurd h' hs)⟩
  
/-- The deduplicated list has no duplicates. -/
theorem nodup_dedupeAux : ∀ (l seen : List String), (dedupeAux seen l).Nodup := by
  intro l
  induction l with
  | nil => intro seen; simp [dedupeAux]
  | cons c rest ih =>
    intro seen
    by_cases hc : c ∈ seen
    · rw [dedupeAux, if_pos hc]; exact ih seen
    · rw [dedupeAux, if_neg hc]
      refine List.Nodup.cons ?_ (ih (c :: seen))
      intro hmem
      exact ((mem_dedupeAux c rest (c :: seen)).mp hmem).2 (List.mem_cons_self _ _)

/-- The sequential chain loop succeeds iff every chain's validation
succeeds, in which case it returns the per-chain outcomes in order. -/
theorem processChainsGo_ok (env : PkiEnv) (domain : String) (caStore : List Cert)
    (f : String → VerifiedChain) :
    ∀ (l : List String),
      (∀ c ∈ l, verifyChain env (chainToCerts c) domain caStore = .ok (f c)) →
      processChainsGo env domain caStore l = .ok (l.map f) := by
  intro l
  induction l with
  | nil => intro _; rfl
  | cons c rest ih =>
    intro h
    rw [processChainsGo, h c (List.mem_cons_self _ _),
      ih (fun d hd => h d (List.mem_cons_of_mem _ hd))]
    rfl

/-- **C4 (amended).** `processChains` returns one outcome per chain of
the deduplicated input, in deduplicated input order, **provided** every
chain's validation completes without an exception; the deduplication
keeps exactly the distinct input chains.  (Chains are *not* evaluated
independently: an exception while validating one chain aborts the loop
and suppresses the outcomes of that and all later chains, see the
counterexample.) -/
theorem processChains_outcomes (env : PkiEnv) (roots chains : List String)
    (domain : String) (f : String → VerifiedChain)
    (h : ∀ c ∈ dedupe chains,
      verifyChain env (chainToCerts c) domain
        (buildCaStore env.certificateFromPem roots).1 = .ok (f c)) :
    processChains env roots chains domain = .ok ((dedupe chains).map f) ∧
    (dedupe chains).Nodup ∧
    (∀ c, c ∈ dedupe chains ↔ c ∈ chains) := by
  refine ⟨?_, nodup_dedupeAux chains [], ?_⟩
  · rw [processChains]
    exact processChainsGo_ok env domain _ f (dedupe chains) h
  · intro c
    rw [dedupe, mem_dedupeAux]
    simp

theorem processChains_outcomes_witness :
    processChains pkiMixed ["root"] ["goodleaf", "goodleaf"] "example.org"
      = .ok [{ chain := ["goodleaf"], valid := true }] :=
  (processChains_outcomes pkiMixed ["root"] ["goodleaf", "goodleaf"] "example.org"
    (fun c => { chain := [c], valid := true })
    (by
      intro c hc
      have hd : dedupe ["goodleaf", "goodleaf"] = ["goodleaf"] := rfl
      rw [hd, List.mem_singleton] at hc
      subst hc
      rfl)).1

/-- **C6.** The subject check passes exactly when the first subject
attribute of the (parsed) leaf equals the requested domain string; and
any chain that does obtain an outcome despite a failing subject check —
in particular even when cryptographic path validation succeeded — is
marked invalid. -/
theorem subject_check_exact :
    (∀ (env : PkiEnv) (cert domain : String) (c : Cert),
        env.certificateFromPem cert = some c →
        (verifyCertSubject env cert domain = .ok true ↔
          c.subjectAttrValues.head? = some domain)) ∧
    (∀ (env : PkiEnv) (chain : List String) (domain : String)
        (caStore : List Cert) (o : VerifiedChain),
        verifyChain env chain domain caStore = .ok o →
        verifyCertSubject env (chain.headD "") domain = .ok false →
        o.valid = false) := by
  constructor
  · intro env cert domain c h
    simp [verifyCertSubject, h]
  · intro env chain domain caStore o hok hsubj
    rw [verifyChain] at hok
    split at hok
    · exact Except.noConfusion hok
    · split at hok
      · exact Except.noConfusion hok
      · rename_i valid heq
        have hval : valid = false := by
          split at heq
          · rw [hsubj] at heq
            injection heq with h
            exact h.symm
          · injection heq with h
            exact h.symm
        split at hok
        · exact Except.noConfusion hok
        · split at hok
          · split at hok
            · exact Except.noConfusion hok
            · injection hok with h
              rw [← h, hval]
              simp
          · injection hok with h
            rw [← h, hval]

/-- `sampleEnv`'s PKI with leaf subject `other.org` instead of the
requested domain. -/
def pkiWrongSubject : PkiEnv :=
  { sampleEnv.pki with
    certificateFromPem := fun _ => some { subjectAttrValues := ["other.org"] } }

theorem subject_check_exact_witness :
    (verifyCertSubject sampleEnv.pki "leaf" "example.org" = .ok true ↔
      (Cert.mk ["example.org"]).subjectAttrValues.head? = some "example.org") ∧
    ({ chain := ["leaf"], valid := false } : VerifiedChain).valid = false :=
  ⟨subject_check_exact.1 sampleEnv.pki "leaf" "example.org" ⟨["example.org"]⟩ rfl,
   subject_check_exact.2 pkiWrongSubject ["leaf"] "example.org" []
     { chain := ["leaf"], valid := false } rfl rfl⟩

/-- `verifyContract` reads the DID only through `did.substring(8)`. -/
theorem verifyContract_ext (env : ResolveEnv) (c : TLSDIDContract) (cert : String)
    {did did' : String} (h : did.drop 8 = did'.drop 8) :
    verifyContract env c did cert = verifyContract env c did' cert := by
  simp only [verifyContract, h]

/-- `resolveContract` reads the DID only through `did.substring(8)`. -/
theorem resolveContract_ext (env : ResolveEnv) {did did' : String}
    (h : did.drop 8 = did'.drop 8) :
    resolveContract env did = resolveContract env did' := by
  simp only [resolveContract, h,
    fun (c : TLSDIDContract) (cert : String) => verifyContract_ext env c cert h]

/-- **C10.** The domain driving every lookup and check is exactly the
input DID minus its first 8 characters: resolution is invariant under
any change to those 8 characters (no scheme check), and a DID shorter
than 8 characters resolves exactly as the empty domain does, with no
error. -/
theorem did_scheme_ignored :
    (∀ (env : ResolveEnv) (did did' : String), did.drop 8 = did'.drop 8 →
      resolveContract env did = resolveContract env did') ∧
    (∀ (did : String), did.length ≤ 8 → did.drop 8 = "") ∧
    (∀ (env : ResolveEnv) (did : String), did.length ≤ 8 →
      resolveContract env did = resolveContract env "") := by
  have hshort : ∀ (did : String), did.length ≤ 8 → did.drop 8 = "" := by
    intro did h
    rw [String.drop_eq]
    have : did.data.drop 8 = [] := List.drop_eq_nil_of_le h
    rw [this]
  refine ⟨fun env did did' h => resolveContract_ext env h, hshort, ?_⟩
  intro env did h
  exact resolveContract_ext env (by rw [hshort did h]; rfl)

theorem did_scheme_ignored_witness :
    resolveContract sampleEnv "did:tls:example.org"
      = resolveContract sampleEnv "xxxxxxxxexample.org" ∧
    "short".drop 8 = "" ∧
    resolveContract sampleEnv "short" = resolveContract sampleEnv "" :=
  ⟨did_scheme_ignored.1 sampleEnv "did:tls:example.org" "xxxxxxxxexample.org" rfl,
   did_scheme_ignored.2.1 "short" (by decide),
   did_scheme_ignored.2.2 sampleEnv "short" (by decide)⟩

/-- Length of the array stored at key `k` of an object, if any. -/
def arrayLenAt (j : JValue) (k : String) : Option Nat :=
  match j with
  | .obj fields =>
    match lookupField fields k with
    | some (.arr xs) => some xs.length
    | _ => none
  | _ => none

/-- **C8, counterexample.** Descending through `a[]` with an already
existing array at `a` does **not** reuse the array's previous last
element: the assembler pushes a fresh element (the array grows from one
to two elements) and places the value inside the fresh one, so a fresh
element is created even though an array previously existed for that
path. -/
theorem addValueAtPath_always_pushes :
    addValueAtPath (.obj [("a", .arr [.obj [("x", .str "1")]])]) "a[]/b" "v"
      = some (.obj [("a", .arr [.obj [("x", .str "1")], .obj [("b", .str "v")]])]) ∧
    arrayLenAt (.obj [("a", .arr [.obj [("x", .str "1")]])]) "a" = some 1 ∧
    arrayLenAt (.obj [("a", .arr [.obj [("x", .str "1")], .obj [("b", .str "v")]])]) "a"
      = some 2 :=
  ⟨rfl, rfl, rfl⟩

/-- Assembling into a fresh empty object never throws: starting from
`{}` every lookup misses, so only the creating branches run. -/
theorem addSegs_empty_isSome (value : String) :
    ∀ (segs : List (List Char)), (addSegs value segs (.obj [])).isSome = true := by
  intro segs
  induction segs with
  | nil => rfl
  | cons key rest ih =>
    cases rest with
    | nil =>
      by_cases hE : endsWithBrackets key <;>
        simp [addSegs, hE, lookupField]
    | cons r rs =>
      by_cases hE : endsWithBrackets key <;>
        simp [addSegs, hE, lookupField, ih]

/-- **C8 (amended).** For a non-final array-append segment the assembler
*always* creates a fresh element and descends into it: with an existing
array at the key the fresh element is appended after the existing
elements (which are preserved), and with no binding at the key a new
one-element array holding the fresh element is created; for a non-array
non-final segment a fresh empty object is stored at the key (replacing
any previous value) and descent targets it. -/
theorem addSegs_fresh_element (fields : List (String × JValue)) (key : List Char)
    (rest : List (List Char)) (value : String) (hr : rest ≠ []) :
    ∃ fresh, addSegs value rest (.obj []) = some fresh ∧
      (endsWithBrackets key = true →
        (∀ xs, lookupField fields (String.mk (sliceDropTwo key)) = some (.arr xs) →
          addSegs value (key :: rest) (.obj fields)
            = some (.obj (objSet fields (String.mk (sliceDropTwo key))
                (.arr (xs ++ [fresh]))))) ∧
        (lookupField fields (String.mk (sliceDropTwo key)) = none →
          addSegs value (key :: rest) (.obj fields)
            = some (.obj (objSet fields (String.mk (sliceDropTwo key))
                (.arr [fresh]))))) ∧
      (endsWithBrackets key = false →
        addSegs value (key :: rest) (.obj fields)
          = some (.obj (objSet fields (String.mk key) fresh))) := by
  obtain ⟨fresh, hf⟩ := Option.isSome_iff_exists.mp (addSegs_empty_isSome value rest)
  refine ⟨fresh, hf, ?_, ?_⟩
  · intro hE
    cases rest with
    | nil => exact absurd rfl hr
    | cons r rs =>
      constructor
      · intro xs hlk
        simp [addSegs, hE, hlk, truthy, hf]
      · intro hlk
        simp [addSegs, hE, hlk, hf]
  · intro hE
    cases rest with
    | nil => exact absurd rfl hr
    | cons r rs =>
      simp [addSegs, hE, hf]

theorem addSegs_fresh_element_witness :
    addSegs "v" [['a', '[', ']'], ['b']] (.obj [("a", .arr [.obj [("x", .str "1")]])])
      = some (.obj (objSet [("a", .arr [.obj [("x", .str "1")]])]
          (String.mk (sliceDropTwo ['a', '[', ']']))
          (.arr ([.obj [("x", .str "1")]] ++ [.obj [("b", .str "v")]])))) := by
  obtain ⟨fresh, h1, h2, _⟩ := addSegs_fresh_element
    [("a", .arr [.obj [("x", .str "1")]])] ['a', '[', ']'] [['b']] "v" (by simp)
  have hc : addSegs "v" [['b']] (.obj []) = some (.obj [("b", .str "v")]) := rfl
  rw [hc] at h1
  injection h1 with h1
  rw [h1]
  exact (h2 rfl).1 [.obj [("x", .str "1")]] rfl

/-- `splitPem` always yields at least one piece (like JS `split`). -/
theorem splitPem_ne_nil : ∀ (l : List Char), splitPem l ≠ [] := by
  intro l
  match l with
  | [] => simp [splitPem]
  | c :: rest =>
    by_cases hc : c = '\n' ∧ beginMarker.isPrefixOf rest = true
    · simp [splitPem, hc]
    · rw [splitPem, if_neg hc]
      cases hsp : splitPem rest <;> simp

/-- Prepending a piece that contains no split boundary (even jointly
with what follows) lands entirely in the first output piece. -/
theorem splitPem_append : ∀ (c s : List Char) (h : List Char) (t : List (List Char)),
    (∀ a b, c = a ++ '\n' :: b → ¬ (beginMarker <+: (b ++ s))) →
    splitPem s = h :: t →
    splitPem (c ++ s) = (c ++ h) :: t := by
  intro c
  induction c with
  | nil =>
    intro s h t _ hs
    simpa using hs
  | cons x c' ih =>
    intro s h t hb hs
    have hx : ¬ (x = '\n' ∧ beginMarker.isPrefixOf (c' ++ s) = true) := by
      rintro ⟨hx1, hx2⟩
      exact hb [] c' (by rw [hx1]; rfl) (List.isPrefixOf_iff_prefix.mp hx2)
    have ih' : splitPem (c' ++ s) = (c' ++ h) :: t :=
      ih s h t (fun a b hab => hb (x :: a) b (by rw [hab]; rfl)) hs
    rw [List.cons_append, splitPem, if_neg hx, ih']
    simp

/-- A newline directly followed by the begin-marker starts a new piece. -/
theorem splitPem_cons_marker (s : List Char)
    (h : beginMarker.isPrefixOf s = true) :
    splitPem ('\n' :: s) = [] :: splitPem s := by
  simp [splitPem, h]

/-- If a piece contains no internal boundary, then after any of its
newlines the rest of the piece does not start the begin-marker. -/
theorem containsNlMarker_decomp :
    ∀ (a b : List Char), containsNlMarker (a ++ '\n' :: b) = false →
      beginMarker.isPrefixOf b = false := by
  intro a
  induction a with
  | nil =>
    intro b h
    rw [List.nil_append, containsNlMarker] at h
    simp at h
    exact h.1
  | cons y a' ih =>
    intro b h
    rw [List.cons_append, containsNlMarker] at h
    simp at h
    exact ih b h.2

/-- The heart of the splitter proof: inside a boundary-free piece, no
newline position can start the begin-marker, even allowing the marker to
continue into the following blob — because the blob continues with a
newline (or nothing), and the marker contains no newline. -/
theorem noMarkerBoundary (c s : List Char) (hc : containsNlMarker c = false)
    (hs : s = [] ∨ ∃ s', s = '\n' :: s') :
    ∀ a b, c = a ++ '\n' :: b → ¬ (beginMarker <+: (b ++ s)) := by
  intro a b hab hpre
  have hb : beginMarker.isPrefixOf b = false :=
    containsNlMarker_decomp a b (hab ▸ hc)
  by_cases hlen : beginMarker.length ≤ b.length
  · have : beginMarker <+: b :=
      List.prefix_of_prefix_length_le hpre (List.prefix_append b s) hlen
    rw [List.isPrefixOf_iff_prefix.mpr this] at hb
    cases hb
  · push_neg at hlen
    have hbm : b <+: beginMarker :=
      List.prefix_of_prefix_length_le (List.prefix_append b s) hpre (by omega)
    obtain ⟨t, ht⟩ := hbm
    have hlt : b.length + t.length = beginMarker.length := by
      rw [← ht]; simp
    have htne : t ≠ [] := by
      intro h0
      rw [h0] at hlt
      simp at hlt
      omega
    have hts : t <+: s := by
      have h2 : b ++ t <+: b ++ s := ht ▸ hpre
      exact (List.prefix_append_right_inj b).mp h2
    cases hs with
    | inl h0 =>
      rw [h0] at hts
      obtain ⟨u, hu⟩ := hts
      simp at hu
      exact htne hu.1
    | inr h1 =>
      obtain ⟨s', rfl⟩ := h1
      obtain ⟨t0, t', rfl⟩ : ∃ t0 t', t = t0 :: t' := by
        cases t with
        | nil => exact absurd rfl htne
        | cons t0 t' => exact ⟨t0, t', rfl⟩
      obtain ⟨u, hu⟩ := hts
      rw [List.cons_append] at hu
      have ht0 : t0 = '\n' := (List.cons.injEq _ _ _ _ ▸ hu).1
      have hmem : t0 ∈ beginMarker := by
        rw [← ht]
        exact List.mem_append_right b (List.mem_cons_self _ _)
      rw [ht0] at hmem
      exact absurd hmem (by decide)

/-- Newline-joining on character lists, mirroring `joinPem`. -/
def joinNl : List (List Char) → List Char
  | [] => []
  | [c] => c
  | c :: cs => c ++ '\n' :: joinNl cs

theorem joinNl_cons₂ (c d : List Char) (cs : List (List Char)) :
    joinNl (c :: d :: cs) = c ++ '\n' :: joinNl (d :: cs) := rfl

theorem head_prefix_joinNl (c : List Char) (cs : List (List Char)) :
    c <+: joinNl (c :: cs) := by
  cases cs with
  | nil => exact List.prefix_refl _
  | cons d tl =>
    rw [joinNl_cons₂]
    exact ⟨'\n' :: joinNl (d :: tl), rfl⟩

/-- Splitting the newline-join of marker-initial, boundary-free pieces
recovers exactly the pieces. -/
theorem splitPem_joinNl :
    ∀ (cs : List (List Char)), cs ≠ [] →
      (∀ c ∈ cs, beginMarker.isPrefixOf c = true ∧ containsNlMarker c = false) →
      splitPem (joinNl cs) = cs := by
  intro cs
  induction cs with
  | nil => intro h _; exact absurd rfl h
  | cons c cs' ih =>
    intro _ h2
    have hc := h2 c (List.mem_cons_self _ _)
    cases cs' with
    | nil =>
      have happ := splitPem_append c [] [] []
        (noMarkerBoundary c [] hc.2 (Or.inl rfl)) rfl
      simpa using happ
    | cons d tl =>
      have hd := h2 d (by simp)
      have hih : splitPem (joinNl (d :: tl)) = d :: tl :=
        ih (by simp) (fun x hx => h2 x (List.mem_cons_of_mem _ hx))
      have hmadv : beginMarker.isPrefixOf (joinNl (d :: tl)) = true :=
        List.isPrefixOf_iff_prefix.mpr
          ((List.isPrefixOf_iff_prefix.mp hd.1).trans (head_prefix_joinNl d tl))
      have hbound : splitPem ('\n' :: joinNl (d :: tl)) = [] :: (d :: tl) := by
        rw [splitPem_cons_marker _ hmadv, hih]
      have happ := splitPem_append c ('\n' :: joinNl (d :: tl)) [] (d :: tl)
        (noMarkerBoundary c _ hc.2 (Or.inr ⟨_, rfl⟩)) hbound
      rw [joinNl_cons₂]
      simpa using happ

theorem joinPem_toList :
    ∀ (cs : List String), (joinPem cs).toList = joinNl (cs.map String.toList) := by
  intro cs
  induction cs with
  | nil => rfl
  | cons c cs' ih =>
    cases cs' with
    | nil => rfl
    | cons d tl =>
      show (c ++ "\n" ++ joinPem (d :: tl)).data
        = c.data ++ '\n' :: joinNl ((d :: tl).map String.toList)
      rw [String.data_append, String.data_append, ← ih]
      simp [String.toList]

/-- **C9.** Splitting the newline-concatenation of PEM certificates
`c1 ‖ … ‖ cn` — each starting with the begin-marker and containing no
internal newline-plus-begin-marker boundary — returns exactly
`[c1, …, cn]`: it splits immediately before each begin-marker, preserves
order, and validates nothing. -/
theorem chainToCerts_exact (certs : List String) (h1 : certs ≠ [])
    (h2 : ∀ c ∈ certs, beginMarker.isPrefixOf c.toList = true ∧
      containsNlMarker c.toList = false) :
    chainToCerts (joinPem certs) = certs := by
  rw [chainToCerts, joinPem_toList]
  rw [splitPem_joinNl (certs.map String.toList) (by simpa using h1)
    (fun c hc => by
      obtain ⟨s, hs, rfl⟩ := List.mem_map.mp hc
      exact h2 s hs)]
  rw [List.map_map]
  have hmk : (String.mk ∘ String.toList) = id := funext fun s => rfl
  rw [hmk, List.map_id]

/-- A small PEM-shaped certificate (contents are irrelevant to the
splitter, which performs no validation). -/
def pemA : String :=
  "-----BEGIN CERTIFICATE-----\nAAAA\n-----END CERTIFICATE-----"

/-- A second small PEM-shaped certificate. -/
def pemB : String :=
  "-----BEGIN CERTIFICATE-----\nBBBB\n-----END CERTIFICATE-----"

theorem chainToCerts_exact_witness :
    chainToCerts (joinPem [pemA, pemB]) = [pemA, pemB] :=
  chainToCerts_exact [pemA, pemB] (by simp) (by decide)
